import Mathlib

/-!
Verification of the numeric core of a beamline film-scatter analysis
program.  The pipeline turns a 2D grid of RGB pixel samples into a
Gaussian beam width (centroid estimation, radial binning, linearized
least-squares fit) and combines per-sample widths into scattering
statistics (quadrature subtraction, RMS aggregation, Highland formula).

The definitions below are a shallow embedding of the program over the
real numbers: loops over pixels become finite sums or list folds,
arrays indexed by bin become functions out of the naturals, and the
nullable sigma fields become options.
-/

/-- A 2D point in pixel coordinates. -/
structure Point where
  x : ℝ
  y : ℝ

/-- A width times height grid of pixel samples; each pixel carries an
RGB channel triple. -/
structure SampleGrid where
  width : ℕ
  height : ℕ
  pix : ℕ → ℕ → ℝ × ℝ × ℝ

/-- Inverted grayscale intensity of a pixel: 255 minus the mean of the
three channels (the film darkens with dose, so darkness is the mass). -/
noncomputable def intensityAt (g : SampleGrid) (x y : ℕ) : ℝ :=
  255 - ((g.pix x y).1 + (g.pix x y).2.1 + (g.pix x y).2.2) / 3

/-- Total thresholded mass accumulated by the centroid loop: pixels
with intensity at most 20 are treated as background and skipped. -/
noncomputable def totalMass (g : SampleGrid) : ℝ :=
  ∑ y in Finset.range g.height, ∑ x in Finset.range g.width,
    if 20 < intensityAt g x y then intensityAt g x y else 0

/-- The x-moment accumulated by the centroid loop. -/
noncomputable def sumX (g : SampleGrid) : ℝ :=
  ∑ y in Finset.range g.height, ∑ x in Finset.range g.width,
    if 20 < intensityAt g x y then (x : ℝ) * intensityAt g x y else 0

/-- The y-moment accumulated by the centroid loop. -/
noncomputable def sumY (g : SampleGrid) : ℝ :=
  ∑ y in Finset.range g.height, ∑ x in Finset.range g.width,
    if 20 < intensityAt g x y then (y : ℝ) * intensityAt g x y else 0

/-- Intensity-weighted centroid of a grid; falls back to the geometric
center when the thresholded mass is exactly zero. -/
noncomputable def calculateCentroid (g : SampleGrid) : Point :=
  if totalMass g = 0 then ⟨(g.width : ℝ) / 2, (g.height : ℝ) / 2⟩
  else ⟨sumX g / totalMass g, sumY g / totalMass g⟩

/-- One point of a radial profile: physical radius and bin-averaged
intensity. -/
structure RadialDataPoint where
  radius : ℝ
  intensity : ℝ

/-- The pixels of a grid in the traversal order of the nested loops
(y outer, x inner), as (x, y) index pairs. -/
def pixList (g : SampleGrid) : List (ℕ × ℕ) :=
  (List.range g.height).flatMap fun y => (List.range g.width).map fun x => (x, y)

/-- Euclidean pixel distance from a pixel to the centroid. -/
noncomputable def pixDist (c : Point) (p : ℕ × ℕ) : ℝ :=
  Real.sqrt (((p.1 : ℝ) - c.x) * ((p.1 : ℝ) - c.x) +
    ((p.2 : ℝ) - c.y) * ((p.2 : ℝ) - c.y))

/-- Number of radial bins: the ceiling of half the grid diagonal. -/
noncomputable def numBins (g : SampleGrid) : ℕ :=
  ⌈Real.sqrt ((g.width : ℝ) * g.width + (g.height : ℝ) * g.height) / 2⌉₊

/-- One step of the radial accumulation loop: add the pixel's intensity
to bin ⌊r⌋ and bump that bin's count, unless the bin index falls outside
the array. -/
noncomputable def accumStep (g : SampleGrid) (c : Point)
    (st : (ℕ → ℝ) × (ℕ → ℕ)) (p : ℕ × ℕ) : (ℕ → ℝ) × (ℕ → ℕ) :=
  let intensity := intensityAt g p.1 p.2
  let binIdx := ⌊pixDist c p⌋₊
  if binIdx < numBins g then
    (fun i => if i = binIdx then st.1 i + intensity else st.1 i,
     fun i => if i = binIdx then st.2 i + 1 else st.2 i)
  else st

/-- The bin-sum and bin-count arrays after the accumulation loop. -/
noncomputable def binAccum (g : SampleGrid) (c : Point) : (ℕ → ℝ) × (ℕ → ℕ) :=
  (pixList g).foldl (accumStep g c) (fun _ => 0, fun _ => 0)

/-- Accumulated intensity sum of one radial bin. -/
noncomputable def binSums (g : SampleGrid) (c : Point) (b : ℕ) : ℝ :=
  (binAccum g c).1 b

/-- Accumulated sample count of one radial bin. -/
noncomputable def binCounts (g : SampleGrid) (c : Point) (b : ℕ) : ℕ :=
  (binAccum g c).2 b

/-- Radial profile: one averaged point per non-empty bin, radius scaled
from pixels to physical units. -/
noncomputable def calculateRadialProfile (g : SampleGrid) (c : Point)
    (pixelToMm : ℝ) : List RadialDataPoint :=
  (List.range (numBins g)).filterMap fun i =>
    if 0 < binCounts g c i then
      some ⟨(i : ℝ) * pixelToMm, binSums g c i / (binCounts g c i : ℝ)⟩
    else none

/-- Peak intensity of a profile, found by the scanning loop that starts
from 0. -/
noncomputable def maxIntensity (profile : List RadialDataPoint) : ℝ :=
  profile.foldl (fun m p => if p.intensity > m then p.intensity else m) 0

/-- The fit window: points strictly between 30% and 95% of the peak
intensity and at strictly positive radius. -/
noncomputable def validPoints (profile : List RadialDataPoint) : List RadialDataPoint :=
  profile.filter fun p =>
    decide (p.intensity < maxIntensity profile * 0.95 ∧
      maxIntensity profile * 0.30 < p.intensity ∧ 0 < p.radius)

/-- Gaussian width from a radial profile by ordinary least squares on
ln(I) against r²; returns 0 when the window is too small or the slope
is not negative. -/
noncomputable def fitGaussian (profile : List RadialDataPoint) : ℝ :=
  let pts := validPoints profile
  if pts.length < 5 then 0
  else
    let s := pts.foldl
      (fun s p =>
        (s.1 + p.radius * p.radius,
         s.2.1 + Real.log p.intensity,
         s.2.2.1 + p.radius * p.radius * Real.log p.intensity,
         s.2.2.2 + p.radius * p.radius * (p.radius * p.radius)))
      ((0 : ℝ), (0 : ℝ), (0 : ℝ), (0 : ℝ))
    let n : ℝ := pts.length
    let slope := (n * s.2.2.1 - s.1 * s.2.1) / (n * s.2.2.2 - s.1 * s.1)
    if 0 ≤ slope then 0
    else Real.sqrt (-1 / (2 * slope))

/-- The regression abscissa of a profile point: radius squared. -/
noncomputable def ptX (p : RadialDataPoint) : ℝ := p.radius * p.radius

/-- The regression ordinate of a profile point: log intensity. -/
noncomputable def ptY (p : RadialDataPoint) : ℝ := Real.log p.intensity

/-- Ordinary least-squares slope of ln(I) against r² over a list of
profile points, by the textbook closed formula. -/
noncomputable def olsSlope (l : List RadialDataPoint) : ℝ :=
  ((l.length : ℝ) * (l.map fun p => ptX p * ptY p).sum -
      (l.map ptX).sum * (l.map ptY).sum) /
    ((l.length : ℝ) * (l.map fun p => ptX p * ptX p).sum -
      (l.map ptX).sum * (l.map ptX).sum)

/-- Sum over all ordered pairs of list positions of the product of the
coordinate differences; the combinatorial core of the OLS slope sign. -/
def pairSum : List (ℝ × ℝ) → ℝ
  | [] => 0
  | p :: t => ((t.map fun q => (p.1 - q.1) * (p.2 - q.2)).sum) + pairSum t

/-- Highland approximation for the RMS multiple-Coulomb-scattering
angle; non-positive inputs and negative outcomes are clamped to 0. -/
noncomputable def calculateHighlandTheta (thickness radLength momentum beta : ℝ) : ℝ :=
  if radLength ≤ 0 ∨ momentum ≤ 0 ∨ beta ≤ 0 ∨ thickness ≤ 0 then 0
  else
    let lx := thickness / radLength
    let term1 := 17.5 / (beta * momentum)
    let term2 := Real.sqrt lx
    let term3 := 1 + 0.038 * Real.log lx
    let theta := term1 * term2 * term3
    if theta > 0 then theta else 0

/-- One measurement station: distance from the scatterer and the two
optional fitted sigmas. -/
structure FilmSample where
  id : ℕ
  distanceL : ℝ
  airSigma : Option ℝ
  materialSigma : Option ℝ

/-- Per-sample derived record shown in the results table. -/
structure AnalysisSummary where
  sampleId : ℕ
  distance : ℝ
  sigmaAir : ℝ
  sigmaMaterial : ℝ
  sigmaCorrected : ℝ
  theta : ℝ
  theoreticalSigma : ℝ

/-- Derivation of one AnalysisSummary from a film sample and the
theoretical Highland angle, as in the results projection. -/
noncomputable def mkSummary (theoreticalTheta : ℝ) (f : FilmSample) : AnalysisSummary :=
  let sa := f.airSigma.getD 0
  let sm := f.materialSigma.getD 0
  let diffSq := sm * sm - sa * sa
  let sigmaCorrected := if diffSq > 0 then Real.sqrt diffSq else 0
  { sampleId := f.id
    distance := f.distanceL
    sigmaAir := sa
    sigmaMaterial := sm
    sigmaCorrected := sigmaCorrected
    theta := if f.distanceL > 0 then sigmaCorrected / f.distanceL else 0
    theoreticalSigma := theoreticalTheta * f.distanceL }

/-- The full results projection over the film list. -/
noncomputable def results (theoreticalTheta : ℝ) (films : List FilmSample) :
    List AnalysisSummary :=
  films.map (mkSummary theoreticalTheta)

/-- Aggregate RMS theta over the samples with strictly positive theta;
0 when no sample qualifies. -/
noncomputable def thetaRms (rs : List AnalysisSummary) : ℝ :=
  let validThetas := (rs.map fun r => r.theta).filter fun t => decide (0 < t)
  if validThetas.length = 0 then 0
  else Real.sqrt ((validThetas.foldl (fun s t => s + t * t) 0) / validThetas.length)

/-- A 1 by 1 grid whose only pixel is black (full intensity 255). -/
def gBlack : SampleGrid := ⟨1, 1, fun _ _ => (0, 0, 0)⟩

/-- A 1 by 1 grid whose only pixel is white (intensity 0). -/
def gWhite : SampleGrid := ⟨1, 1, fun _ _ => (255, 255, 255)⟩

/-- A centroid placed two pixels outside the 1 by 1 grid. -/
def cFar : Point := ⟨2, 0⟩

/-- The origin centroid. -/
def cZero : Point := ⟨0, 0⟩

/-- A concrete decreasing profile whose fit window holds five points. -/
def profileW : List RadialDataPoint :=
  [⟨0, 100⟩, ⟨1, 90⟩, ⟨2, 80⟩, ⟨3, 70⟩, ⟨4, 60⟩, ⟨5, 40⟩]

/-- A concrete profile monotonically increasing with radius. -/
def profileInc : List RadialDataPoint :=
  [⟨1, 40⟩, ⟨2, 50⟩, ⟨3, 60⟩, ⟨4, 70⟩, ⟨5, 80⟩, ⟨6, 90⟩]

/-- A list of nonpositive reals has nonpositive sum. -/
lemma sum_nonpos_of_mem {l : List ℝ} (h : ∀ x ∈ l, x ≤ 0) : l.sum ≤ 0 := by
  induction l with
  | nil => simp
  | cons x t ih =>
    simp only [List.sum_cons]
    have hx := h x (by simp)
    have ht := ih fun y hy => h y (by simp [hy])
    linarith

/-- Expansion of the cross-term sum against a fixed head pair. -/
lemma crossSum_eq (a : ℝ × ℝ) (t : List (ℝ × ℝ)) :
    (t.map fun q => (a.1 - q.1) * (a.2 - q.2)).sum =
      (t.length : ℝ) * (a.1 * a.2) - a.1 * (t.map Prod.snd).sum -
        a.2 * (t.map Prod.fst).sum + (t.map fun q => q.1 * q.2).sum := by
  induction t with
  | nil => simp
  | cons q t ih =>
    simp only [List.map_cons, List.sum_cons, List.length_cons, ih]
    push_cast
    ring

/-- The OLS numerator n·Σxy − Σx·Σy equals the sum over ordered pairs
of (xᵢ − xⱼ)(yᵢ − yⱼ). -/
lemma num_eq_pairSum (l : List (ℝ × ℝ)) :
    (l.length : ℝ) * (l.map fun p => p.1 * p.2).sum -
      (l.map Prod.fst).sum * (l.map Prod.snd).sum = pairSum l := by
  induction l with
  | nil => simp [pairSum]
  | cons p t ih =>
    simp only [List.map_cons, List.sum_cons, List.length_cons, pairSum, crossSum_eq]
    push_cast
    linear_combination ih

/-- Pairwise jointly non-decreasing coordinates give a nonnegative pair sum. -/
lemma pairSum_nonneg {l : List (ℝ × ℝ)}
    (h : l.Pairwise fun p q => p.1 ≤ q.1 ∧ p.2 ≤ q.2) : 0 ≤ pairSum l := by
  induction l with
  | nil => simp [pairSum]
  | cons p t ih =>
    rcases List.pairwise_cons.mp h with ⟨hp, ht⟩
    have h1 : 0 ≤ (t.map fun q => (p.1 - q.1) * (p.2 - q.2)).sum := by
      apply List.sum_nonneg
      intro x hx
      rcases List.mem_map.mp hx with ⟨q, hq, rfl⟩
      have hpq := hp q hq
      nlinarith [hpq.1, hpq.2]
    have h2 := ih ht
    simp only [pairSum]
    linarith

/-- Pairwise increasing first against decreasing second coordinate gives
a nonpositive pair sum. -/
lemma pairSum_nonpos {l : List (ℝ × ℝ)}
    (h : l.Pairwise fun p q => p.1 ≤ q.1 ∧ q.2 ≤ p.2) : pairSum l ≤ 0 := by
  induction l with
  | nil => simp [pairSum]
  | cons p t ih =>
    rcases List.pairwise_cons.mp h with ⟨hp, ht⟩
    have h1 : (t.map fun q => (p.1 - q.1) * (p.2 - q.2)).sum ≤ 0 := by
      apply sum_nonpos_of_mem
      intro x hx
      rcases List.mem_map.mp hx with ⟨q, hq, rfl⟩
      have hpq := hp q hq
      nlinarith [hpq.1, hpq.2]
    have h2 := ih ht
    simp only [pairSum]
    linarith

/-- With strictly increasing first and strictly decreasing second
coordinates and at least two points, the pair sum is strictly negative. -/
lemma pairSum_neg {l : List (ℝ × ℝ)}
    (h : l.Pairwise fun p q => p.1 < q.1 ∧ q.2 < p.2) (h2 : 2 ≤ l.length) :
    pairSum l < 0 := by
  match l, h2 with
  | p :: q :: t, _ =>
    rcases List.pairwise_cons.mp h with ⟨hp, ht⟩
    have hq := hp q (by simp)
    have hhead : (p.1 - q.1) * (p.2 - q.2) < 0 :=
      mul_neg_of_neg_of_pos (by linarith [hq.1]) (by linarith [hq.2])
    have hrest : ((t.map fun r => (p.1 - r.1) * (p.2 - r.2)).sum) ≤ 0 := by
      apply sum_nonpos_of_mem
      intro x hx
      rcases List.mem_map.mp hx with ⟨r, hr, rfl⟩
      have hpr := hp r (by simp [hr])
      nlinarith [hpr.1, hpr.2]
    have htail : pairSum (q :: t) ≤ 0 := by
      apply pairSum_nonpos
      exact ht.imp fun hxy => ⟨le_of_lt hxy.1, le_of_lt hxy.2⟩
    simp only [pairSum, List.map_cons, List.sum_cons] at htail ⊢
    linarith

/-- The pair sum of a duplicated list is a sum of squares, hence
nonnegative. -/
lemma pairSum_sq_nonneg (l : List ℝ) : 0 ≤ pairSum (l.map fun x => (x, x)) := by
  induction l with
  | nil => simp [pairSum]
  | cons x t ih =>
    simp only [List.map_cons, pairSum]
    have h2 : 0 ≤ (((t.map fun a => (a, a)).map fun q => ((x, x).1 - q.1) * ((x, x).2 - q.2)).sum) := by
      apply List.sum_nonneg
      intro v hv
      rcases List.mem_map.mp hv with ⟨q, hq, rfl⟩
      rcases List.mem_map.mp hq with ⟨a, _, rfl⟩
      simpa using mul_self_nonneg (x - a)
    linarith

/-- With strictly increasing entries and at least two of them, the
duplicated pair sum is strictly positive. -/
lemma pairSum_sq_pos {l : List ℝ} (h : l.Pairwise (· < ·)) (h2 : 2 ≤ l.length) :
    0 < pairSum (l.map fun x => (x, x)) := by
  match l, h2 with
  | x :: a :: t, _ =>
    rcases List.pairwise_cons.mp h with ⟨hx, ht⟩
    have hxa : x < a := hx a (by simp)
    have hhead : 0 < (x - a) * (x - a) := by nlinarith
    have hrest : 0 ≤ ((t.map fun b => (b, b)).map fun q => (x - q.1) * (x - q.2)).sum := by
      apply List.sum_nonneg
      intro v hv
      rcases List.mem_map.mp hv with ⟨q, hq, rfl⟩
      rcases List.mem_map.mp hq with ⟨b, _, rfl⟩
      simpa using mul_self_nonneg (x - b)
    have htail : 0 ≤ pairSum ((a :: t).map fun y => (y, y)) := pairSum_sq_nonneg (a :: t)
    simp only [List.map_cons, pairSum, List.sum_cons] at htail ⊢
    linarith

/-- The OLS slope as a quotient of two pair sums. -/
lemma olsSlope_eq_pairSum (l : List RadialDataPoint) :
    olsSlope l = pairSum (l.map fun p => (ptX p, ptY p)) /
      pairSum ((l.map ptX).map fun x => (x, x)) := by
  rw [← num_eq_pairSum, ← num_eq_pairSum]
  simp only [olsSlope, List.map_map, List.length_map, Function.comp_def]

/-- The running-sum fold of the regression loop equals the four closed
map-sums. -/
lemma foldl_sums (l : List RadialDataPoint) :
    ∀ a b c d : ℝ,
      l.foldl (fun s p =>
        (s.1 + p.radius * p.radius,
         s.2.1 + Real.log p.intensity,
         s.2.2.1 + p.radius * p.radius * Real.log p.intensity,
         s.2.2.2 + p.radius * p.radius * (p.radius * p.radius))) (a, b, c, d) =
      (a + (l.map ptX).sum, b + (l.map ptY).sum,
       c + (l.map fun p => ptX p * ptY p).sum,
       d + (l.map fun p => ptX p * ptX p).sum) := by
  induction l with
  | nil => intro a b c d; simp
  | cons p t ih =>
    intro a b c d
    simp only [List.foldl_cons, List.map_cons, List.sum_cons, ih, ptX, ptY]
    simp [add_assoc]

/-- The running sum of squares in the RMS loop equals the closed map-sum. -/
lemma foldl_sq (l : List ℝ) :
    ∀ a : ℝ, l.foldl (fun s t => s + t * t) a = a + (l.map fun t => t * t).sum := by
  induction l with
  | nil => intro a; simp
  | cons x t ih =>
    intro a
    simp only [List.foldl_cons, List.map_cons, List.sum_cons, ih]
    rw [add_assoc]

/-- When the window holds at least five points, the fitter computes the
closed OLS slope and branches on its sign. -/
lemma fitGaussian_eq (profile : List RadialDataPoint)
    (h5 : ¬ (validPoints profile).length < 5) :
    fitGaussian profile =
      if 0 ≤ olsSlope (validPoints profile) then 0
      else Real.sqrt (-1 / (2 * olsSlope (validPoints profile))) := by
  unfold fitGaussian
  rw [if_neg h5, foldl_sums]
  simp only [zero_add]
  rfl

/-- The positive-branch value of the Highland evaluator is the clamped
closed formula. -/
lemma ite_pos_eq_max (t : ℝ) : (if t > 0 then t else 0) = max 0 t := by
  rcases le_or_lt t 0 with h | h
  · rw [if_neg (not_lt.mpr h), max_eq_left h]
  · rw [if_pos h, max_eq_right h.le]

/-- Claim C3: calculateHighlandTheta returns 0 when any parameter is
non-positive, otherwise the Highland value clamped at 0 from below, and
its result is never negative. -/
theorem highlandTheta_C3 (thickness radLength momentum beta : ℝ) :
    (radLength ≤ 0 ∨ momentum ≤ 0 ∨ beta ≤ 0 ∨ thickness ≤ 0 →
      calculateHighlandTheta thickness radLength momentum beta = 0) ∧
    (0 < radLength → 0 < momentum → 0 < beta → 0 < thickness →
      calculateHighlandTheta thickness radLength momentum beta =
        max 0 (17.5 / (beta * momentum) * Real.sqrt (thickness / radLength) *
          (1 + 0.038 * Real.log (thickness / radLength)))) ∧
    0 ≤ calculateHighlandTheta thickness radLength momentum beta := by
  refine ⟨fun h => by simp only [calculateHighlandTheta, if_pos h], ?_, ?_⟩
  · intro hX hp hb hx
    have hcond : ¬ (radLength ≤ 0 ∨ momentum ≤ 0 ∨ beta ≤ 0 ∨ thickness ≤ 0) := by
      push_neg
      exact ⟨hX, hp, hb, hx⟩
    simp only [calculateHighlandTheta, if_neg hcond]
    exact ite_pos_eq_max _
  · simp only [calculateHighlandTheta]
    split_ifs with h1 h2
    · exact le_refl 0
    · exact le_of_lt h2
    · exact le_refl 0

/-- Witness for C3 at the documented physics inputs. -/
theorem highlandTheta_C3_wit :
    calculateHighlandTheta 1 36.08 150 0.5 =
      max 0 (17.5 / (0.5 * 150) * Real.sqrt (1 / 36.08) *
        (1 + 0.038 * Real.log (1 / 36.08))) :=
  (highlandTheta_C3 1 36.08 150 0.5).2.1 (by norm_num) (by norm_num)
    (by norm_num) (by norm_num)

/-- Claim C2: the per-sample summary computes the quadrature-subtracted
corrected sigma clamped at 0, a guarded theta, and the theoretical
sigma, with the documented concrete value at sigmas 3 and 5. -/
theorem analysisSummary_C2 (tth : ℝ) (f : FilmSample) :
    (mkSummary tth f).sigmaCorrected =
      Real.sqrt (max 0 (f.materialSigma.getD 0 * f.materialSigma.getD 0 -
        f.airSigma.getD 0 * f.airSigma.getD 0)) ∧
    0 ≤ (mkSummary tth f).sigmaCorrected ∧
    (0 ≤ f.materialSigma.getD 0 → f.materialSigma.getD 0 ≤ f.airSigma.getD 0 →
      (mkSummary tth f).sigmaCorrected = 0) ∧
    (mkSummary tth f).theta =
      (if 0 < f.distanceL then (mkSummary tth f).sigmaCorrected / f.distanceL
       else 0) ∧
    (mkSummary tth f).theoreticalSigma = tth * f.distanceL ∧
    (mkSummary 0 ⟨1, 100, some 3, some 5⟩).sigmaCorrected = 4 := by
  have hcorr : (mkSummary tth f).sigmaCorrected =
      Real.sqrt (max 0 (f.materialSigma.getD 0 * f.materialSigma.getD 0 -
        f.airSigma.getD 0 * f.airSigma.getD 0)) := by
    simp only [mkSummary]
    rcases le_or_lt (f.materialSigma.getD 0 * f.materialSigma.getD 0 -
        f.airSigma.getD 0 * f.airSigma.getD 0) 0 with h | h
    · rw [if_neg (not_lt.mpr h), max_eq_left h, Real.sqrt_zero]
    · rw [if_pos h, max_eq_right h.le]
  refine ⟨hcorr, hcorr ▸ Real.sqrt_nonneg _, ?_, rfl, rfl, ?_⟩
  · intro hsm hle
    have hsq : f.materialSigma.getD 0 * f.materialSigma.getD 0 ≤
        f.airSigma.getD 0 * f.airSigma.getD 0 := mul_self_le_mul_self hsm hle
    simp only [mkSummary]
    rw [if_neg (not_lt.mpr (by linarith))]
  · simp only [mkSummary, Option.getD_some]
    rw [if_pos (by norm_num), show (5 : ℝ) * 5 - 3 * 3 = 4 ^ 2 by norm_num,
      Real.sqrt_sq (by norm_num)]

/-- Witness for C2: material sigma below air sigma yields corrected
sigma 0. -/
theorem analysisSummary_C2_wit :
    (mkSummary 0 ⟨2, 50, some 5, some 3⟩).sigmaCorrected = 0 :=
  (analysisSummary_C2 0 ⟨2, 50, some 5, some 3⟩).2.2.1
    (by norm_num [Option.getD_some]) (by norm_num [Option.getD_some])

/-- Claim C5: thetaRms is the RMS of the thetas over exactly the
samples with strictly positive theta, 0 when none qualifies, with the
documented value on thetas 0.01, 0.02, 0. -/
theorem thetaRms_C5 (rs : List AnalysisSummary) :
    (thetaRms rs =
      if (rs.filter fun r => decide (0 < r.theta)).length = 0 then 0
      else Real.sqrt
        (((rs.filter fun r => decide (0 < r.theta)).map fun r =>
            r.theta * r.theta).sum /
          ((rs.filter fun r => decide (0 < r.theta)).length : ℝ))) ∧
    ((∀ r ∈ rs, r.theta ≤ 0) → thetaRms rs = 0) ∧
    thetaRms [⟨1, 100, 0, 0, 0, 0.01, 0⟩, ⟨2, 200, 0, 0, 0, 0.02, 0⟩,
        ⟨3, 300, 0, 0, 0, 0, 0⟩] =
      Real.sqrt ((0.01 * 0.01 + 0.02 * 0.02) / 2) := by
  refine ⟨?_, ?_, ?_⟩
  · have h : ((rs.map fun r : AnalysisSummary => r.theta).filter fun t =>
        decide (0 < t)) =
        (rs.filter fun r => decide (0 < r.theta)).map fun r => r.theta := by
      rw [List.filter_map]
      rfl
    simp only [thetaRms, h, List.length_map, foldl_sq, zero_add, List.map_map]
    rfl
  · intro hall
    have hnil : ((rs.map fun r => r.theta).filter fun t => decide (0 < t)) = [] := by
      rw [List.filter_eq_nil_iff]
      intro t ht
      rcases List.mem_map.mp ht with ⟨r, hr, rfl⟩
      simpa using not_lt.mpr (hall r hr)
    simp only [thetaRms, hnil, List.length_nil, if_pos]
  · simp only [thetaRms, List.map_cons, List.map_nil]
    norm_num [List.filter]

/-- Witness for C5: a single non-positive theta gives RMS 0. -/
theorem thetaRms_C5_wit : thetaRms [⟨7, 100, 0, 0, 0, 0, 0⟩] = 0 :=
  (thetaRms_C5 [⟨7, 100, 0, 0, 0, 0, 0⟩]).2.1 (by
    intro r hr
    rcases List.mem_singleton.mp hr with rfl
    norm_num)

/-- Membership in the fit window unpacks to the three window bounds. -/
lemma mem_validPoints {profile : List RadialDataPoint} {p : RadialDataPoint}
    (hp : p ∈ validPoints profile) :
    p.intensity < maxIntensity profile * 0.95 ∧
      maxIntensity profile * 0.30 < p.intensity ∧ 0 < p.radius :=
  of_decide_eq_true (List.mem_filter.mp hp).2

/-- A nonempty fit window forces a strictly positive peak intensity. -/
lemma maxIntensity_pos {profile : List RadialDataPoint} {p : RadialDataPoint}
    (hp : p ∈ validPoints profile) : 0 < maxIntensity profile := by
  obtain ⟨h1, h2, _⟩ := mem_validPoints hp
  nlinarith

/-- Every point of the fit window has strictly positive intensity. -/
lemma validPoints_intensity_pos {profile : List RadialDataPoint}
    {p : RadialDataPoint} (hp : p ∈ validPoints profile) : 0 < p.intensity := by
  have hmax := maxIntensity_pos hp
  obtain ⟨_, h2, _⟩ := mem_validPoints hp
  nlinarith

/-- Claim C4: the fitter returns exactly 0 when the window holds fewer
than five points, when the OLS slope is nonnegative, and in particular
on any profile whose intensity increases monotonically with radius. -/
theorem fitGaussian_zero_C4 (profile : List RadialDataPoint) :
    ((validPoints profile).length < 5 → fitGaussian profile = 0) ∧
    (0 ≤ olsSlope (validPoints profile) → fitGaussian profile = 0) ∧
    (profile.Pairwise (fun p q => p.radius ≤ q.radius ∧
        p.intensity ≤ q.intensity) →
      fitGaussian profile = 0) := by
  have hshort : (validPoints profile).length < 5 → fitGaussian profile = 0 := by
    intro h
    unfold fitGaussian
    rw [if_pos h]
  have hslope : 0 ≤ olsSlope (validPoints profile) → fitGaussian profile = 0 := by
    intro h
    by_cases hlen : (validPoints profile).length < 5
    · exact hshort hlen
    · rw [fitGaussian_eq profile hlen, if_pos h]
  refine ⟨hshort, hslope, ?_⟩
  intro hmono
  by_cases hlen : (validPoints profile).length < 5
  · exact hshort hlen
  · apply hslope
    rw [olsSlope_eq_pairSum]
    apply div_nonneg
    · apply pairSum_nonneg
      rw [List.pairwise_map]
      have hvp : (validPoints profile).Pairwise
          (fun p q => p.radius ≤ q.radius ∧ p.intensity ≤ q.intensity) :=
        List.Pairwise.sublist (List.filter_sublist _) hmono
      refine List.Pairwise.imp_of_mem ?_ hvp
      intro p q hp hq hr
      have hpr := (mem_validPoints hp).2.2
      have hpI := validPoints_intensity_pos hp
      exact ⟨mul_self_le_mul_self hpr.le hr.1, Real.log_le_log hpI hr.2⟩
    · exact pairSum_sq_nonneg _

/-- Witness for C4: a monotonically increasing concrete profile fits
to exactly 0. -/
theorem fitGaussian_zero_C4_wit : fitGaussian profileInc = 0 :=
  (fitGaussian_zero_C4 profileInc).2.2 (by
    norm_num [profileInc, List.pairwise_cons])

/-- Claim C1: with at least five windowed points and a strictly
negative OLS slope m, the fitter returns sqrt(-1/(2m)). -/
theorem fitGaussian_formula_C1 (profile : List RadialDataPoint)
    (h5 : 5 ≤ (validPoints profile).length)
    (hm : olsSlope (validPoints profile) < 0) :
    fitGaussian profile = Real.sqrt (-1 / (2 * olsSlope (validPoints profile))) := by
  rw [fitGaussian_eq profile (by omega), if_neg (not_le.mpr hm)]

/-- Peak of the concrete decreasing profile. -/
lemma maxI_profileW : maxIntensity profileW = 100 := by
  norm_num [maxIntensity, profileW]

/-- Fit window of the concrete decreasing profile: the five interior
points. -/
lemma validP_profileW :
    validPoints profileW = [⟨1, 90⟩, ⟨2, 80⟩, ⟨3, 70⟩, ⟨4, 60⟩, ⟨5, 40⟩] := by
  unfold validPoints
  rw [maxI_profileW]
  norm_num [profileW, List.filter]

/-- The OLS slope of the concrete decreasing profile is negative. -/
lemma slope_profileW_neg : olsSlope (validPoints profileW) < 0 := by
  rw [validP_profileW, olsSlope_eq_pairSum]
  apply div_neg_of_neg_of_pos
  · apply pairSum_neg
    · rw [List.pairwise_map]
      norm_num [List.pairwise_cons, ptX, ptY]
      refine ⟨⟨?_, ?_, ?_, ?_⟩, ⟨?_, ?_, ?_⟩, ⟨?_, ?_⟩, ?_⟩ <;>
        exact Real.log_lt_log (by norm_num) (by norm_num)
    · norm_num
  · apply pairSum_sq_pos
    · rw [List.pairwise_map]
      norm_num [List.pairwise_cons, ptX]
    · norm_num

/-- Witness for C1: the concrete decreasing profile produces the
closed-form sigma. -/
theorem fitGaussian_formula_C1_wit :
    fitGaussian profileW =
      Real.sqrt (-1 / (2 * olsSlope (validPoints profileW))) :=
  fitGaussian_formula_C1 profileW
    (by rw [validP_profileW]; norm_num) slope_profileW_neg

/-- The thresholded mass is a sum of nonnegative contributions. -/
lemma totalMass_nonneg (g : SampleGrid) : 0 ≤ totalMass g := by
  apply Finset.sum_nonneg
  intro y _
  apply Finset.sum_nonneg
  intro x _
  split_ifs with h
  · linarith
  · exact le_refl 0

/-- The x-moment is nonnegative. -/
lemma sumX_nonneg (g : SampleGrid) : 0 ≤ sumX g := by
  apply Finset.sum_nonneg
  intro y _
  apply Finset.sum_nonneg
  intro x _
  split_ifs with h
  · have : (0 : ℝ) ≤ x := Nat.cast_nonneg x
    nlinarith
  · exact le_refl 0

/-- The y-moment is nonnegative. -/
lemma sumY_nonneg (g : SampleGrid) : 0 ≤ sumY g := by
  apply Finset.sum_nonneg
  intro y _
  apply Finset.sum_nonneg
  intro x _
  split_ifs with h
  · have : (0 : ℝ) ≤ y := Nat.cast_nonneg y
    nlinarith
  · exact le_refl 0

/-- The x-moment is bounded by width times mass. -/
lemma sumX_le (g : SampleGrid) : sumX g ≤ (g.width : ℝ) * totalMass g := by
  unfold sumX totalMass
  rw [Finset.mul_sum]
  apply Finset.sum_le_sum
  intro y _
  rw [Finset.mul_sum]
  apply Finset.sum_le_sum
  intro x hx
  split_ifs with h
  · have hxw : (x : ℝ) ≤ g.width := by
      exact_mod_cast (Finset.mem_range.mp hx).le
    have hI : (0 : ℝ) ≤ intensityAt g x y := by linarith
    exact mul_le_mul_of_nonneg_right hxw hI
  · simp

/-- The y-moment is bounded by height times mass. -/
lemma sumY_le (g : SampleGrid) : sumY g ≤ (g.height : ℝ) * totalMass g := by
  unfold sumY totalMass
  rw [Finset.mul_sum]
  apply Finset.sum_le_sum
  intro y hy
  rw [Finset.mul_sum]
  apply Finset.sum_le_sum
  intro x _
  split_ifs with h
  · have hyh : (y : ℝ) ≤ g.height := by
      exact_mod_cast (Finset.mem_range.mp hy).le
    have hI : (0 : ℝ) ≤ intensityAt g x y := by linarith
    exact mul_le_mul_of_nonneg_right hyh hI
  · simp

/-- Claim C9: zero thresholded mass yields the geometric-center
fallback, and whenever the code divides, the divisor is strictly
positive. -/
theorem centroid_zeroMass_C9 (g : SampleGrid) :
    (totalMass g = 0 →
      calculateCentroid g = ⟨(g.width : ℝ) / 2, (g.height : ℝ) / 2⟩) ∧
    (totalMass g ≠ 0 → 0 < totalMass g ∧
      calculateCentroid g = ⟨sumX g / totalMass g, sumY g / totalMass g⟩) := by
  constructor
  · intro h
    unfold calculateCentroid
    rw [if_pos h]
  · intro h
    refine ⟨(totalMass_nonneg g).lt_of_ne (Ne.symm h), ?_⟩
    unfold calculateCentroid
    rw [if_neg h]

/-- The all-white grid has zero thresholded mass. -/
lemma totalMass_gWhite : totalMass gWhite = 0 := by
  norm_num [totalMass, gWhite, intensityAt, Finset.sum_range_one]

/-- Witness for C9: the all-white 1 by 1 grid falls back to its
geometric center. -/
theorem centroid_zeroMass_C9_wit :
    calculateCentroid gWhite = ⟨(1 : ℝ) / 2, (1 : ℝ) / 2⟩ := by
  have h := (centroid_zeroMass_C9 gWhite).1 totalMass_gWhite
  simpa [gWhite] using h

/-- Claim C10: the returned centroid always lies inside the grid's
pixel-coordinate bounds. -/
theorem centroid_bounds_C10 (g : SampleGrid)
    (hw : 1 ≤ g.width) (hh : 1 ≤ g.height) :
    0 ≤ (calculateCentroid g).x ∧ (calculateCentroid g).x ≤ g.width ∧
    0 ≤ (calculateCentroid g).y ∧ (calculateCentroid g).y ≤ g.height := by
  by_cases hm : totalMass g = 0
  · unfold calculateCentroid
    rw [if_pos hm]
    have hw0 : (0 : ℝ) ≤ g.width := Nat.cast_nonneg _
    have hh0 : (0 : ℝ) ≤ g.height := Nat.cast_nonneg _
    exact ⟨by positivity, by linarith, by positivity, by linarith⟩
  · have hpos : 0 < totalMass g := (totalMass_nonneg g).lt_of_ne (Ne.symm hm)
    unfold calculateCentroid
    rw [if_neg hm]
    refine ⟨div_nonneg (sumX_nonneg g) hpos.le, ?_,
      div_nonneg (sumY_nonneg g) hpos.le, ?_⟩
    · rw [div_le_iff₀ hpos]
      exact sumX_le g
    · rw [div_le_iff₀ hpos]
      exact sumY_le g

/-- Witness for C10 on the 1 by 1 black grid. -/
theorem centroid_bounds_C10_wit :
    0 ≤ (calculateCentroid gBlack).x ∧
      (calculateCentroid gBlack).x ≤ gBlack.width ∧
    0 ≤ (calculateCentroid gBlack).y ∧
      (calculateCentroid gBlack).y ≤ gBlack.height :=
  centroid_bounds_C10 gBlack (le_refl 1) (le_refl 1)

/-- Real-valued Gauss sum over an index range. -/
lemma sum_range_cast (n : ℕ) :
    (∑ i in Finset.range n, (i : ℝ)) = n * (n - 1) / 2 := by
  induction n with
  | zero => simp
  | succ m ih =>
    rw [Finset.sum_range_succ, ih]
    push_cast
    ring

/-- On a uniform below-threshold grid, the mass is zero. -/
lemma totalMass_uniform_low (g : SampleGrid) (c : ℝ)
    (hu : ∀ x < g.width, ∀ y < g.height, intensityAt g x y = c)
    (hc : c ≤ 20) : totalMass g = 0 := by
  unfold totalMass
  apply Finset.sum_eq_zero
  intro y hy
  apply Finset.sum_eq_zero
  intro x hx
  rw [hu x (Finset.mem_range.mp hx) y (Finset.mem_range.mp hy),
    if_neg (not_lt.mpr hc)]

/-- On a uniform above-threshold grid, the mass is width·height·c. -/
lemma totalMass_uniform_high (g : SampleGrid) (c : ℝ)
    (hu : ∀ x < g.width, ∀ y < g.height, intensityAt g x y = c)
    (hc : 20 < c) : totalMass g = (g.width : ℝ) * g.height * c := by
  unfold totalMass
  have hrow : ∀ y ∈ Finset.range g.height,
      (∑ x in Finset.range g.width,
        if 20 < intensityAt g x y then intensityAt g x y else 0) =
      (g.width : ℝ) * c := by
    intro y hy
    rw [Finset.sum_congr rfl fun x hx => by
      rw [hu x (Finset.mem_range.mp hx) y (Finset.mem_range.mp hy), if_pos hc]]
    rw [Finset.sum_const, Finset.card_range, nsmul_eq_mul]
  rw [Finset.sum_congr rfl hrow, Finset.sum_const, Finset.card_range,
    nsmul_eq_mul]
  ring

/-- On a uniform above-threshold grid, the x-moment is the Gauss sum
times height times c. -/
lemma sumX_uniform_high (g : SampleGrid) (c : ℝ)
    (hu : ∀ x < g.width, ∀ y < g.height, intensityAt g x y = c)
    (hc : 20 < c) :
    sumX g = (g.width : ℝ) * (g.width - 1) / 2 * g.height * c := by
  unfold sumX
  have hrow : ∀ y ∈ Finset.range g.height,
      (∑ x in Finset.range g.width,
        if 20 < intensityAt g x y then (x : ℝ) * intensityAt g x y else 0) =
      (g.width : ℝ) * (g.width - 1) / 2 * c := by
    intro y hy
    rw [Finset.sum_congr rfl fun x hx => by
      rw [hu x (Finset.mem_range.mp hx) y (Finset.mem_range.mp hy), if_pos hc]]
    rw [← Finset.sum_mul, sum_range_cast]
  rw [Finset.sum_congr rfl hrow, Finset.sum_const, Finset.card_range,
    nsmul_eq_mul]
  ring

/-- On a uniform above-threshold grid, the y-moment is the Gauss sum
times width times c. -/
lemma sumY_uniform_high (g : SampleGrid) (c : ℝ)
    (hu : ∀ x < g.width, ∀ y < g.height, intensityAt g x y = c)
    (hc : 20 < c) :
    sumY g = (g.height : ℝ) * (g.height - 1) / 2 * g.width * c := by
  unfold sumY
  have hrow : ∀ y ∈ Finset.range g.height,
      (∑ x in Finset.range g.width,
        if 20 < intensityAt g x y then (y : ℝ) * intensityAt g x y else 0) =
      (g.width : ℝ) * ((y : ℝ) * c) := by
    intro y hy
    rw [Finset.sum_congr rfl fun x hx => by
      rw [hu x (Finset.mem_range.mp hx) y (Finset.mem_range.mp hy), if_pos hc]]
    rw [Finset.sum_const, Finset.card_range, nsmul_eq_mul]
  rw [Finset.sum_congr rfl hrow]
  rw [show (fun y : ℕ => (g.width : ℝ) * ((y : ℝ) * c)) =
    (fun y : ℕ => ((g.width : ℝ) * c) * (y : ℝ)) from funext fun y => by ring]
  rw [← Finset.mul_sum, sum_range_cast]
  ring

/-- Amended claim C6: a uniform grid at or below the background
threshold is sent to the geometric center (w/2, h/2); a uniform grid
above the threshold is sent to the mean pixel index
((w-1)/2, (h-1)/2), half a pixel away from (w/2, h/2). -/
theorem centroid_uniform_C6 (g : SampleGrid) (c : ℝ)
    (hu : ∀ x < g.width, ∀ y < g.height, intensityAt g x y = c) :
    (c ≤ 20 → calculateCentroid g = ⟨(g.width : ℝ) / 2, (g.height : ℝ) / 2⟩) ∧
    (20 < c → 1 ≤ g.width → 1 ≤ g.height →
      calculateCentroid g =
        ⟨((g.width : ℝ) - 1) / 2, ((g.height : ℝ) - 1) / 2⟩) := by
  constructor
  · intro hc
    unfold calculateCentroid
    rw [if_pos (totalMass_uniform_low g c hu hc)]
  · intro hc hw hh
    have hwR : (0 : ℝ) < g.width := by exact_mod_cast hw
    have hhR : (0 : ℝ) < g.height := by exact_mod_cast hh
    have hcR : (0 : ℝ) < c := by linarith
    have hM := totalMass_uniform_high g c hu hc
    have hMne : totalMass g ≠ 0 := by
      rw [hM]
      positivity
    unfold calculateCentroid
    rw [if_neg hMne, hM, sumX_uniform_high g c hu hc, sumY_uniform_high g c hu hc]
    simp only [Point.mk.injEq]
    constructor
    · field_simp
      ring
    · field_simp
      ring

/-- The all-black grid carries mass 255 on its single pixel. -/
lemma totalMass_gBlack : totalMass gBlack = 255 := by
  norm_num [totalMass, gBlack, intensityAt, Finset.sum_range_one]

/-- The all-black grid's x-moment vanishes. -/
lemma sumX_gBlack : sumX gBlack = 0 := by
  norm_num [sumX, gBlack, intensityAt, Finset.sum_range_one]

/-- The all-black grid's y-moment vanishes. -/
lemma sumY_gBlack : sumY gBlack = 0 := by
  norm_num [sumY, gBlack, intensityAt, Finset.sum_range_one]

/-- The centroid of the all-black 1 by 1 grid is the pixel index (0, 0). -/
lemma centroid_gBlack : calculateCentroid gBlack = ⟨0, 0⟩ := by
  unfold calculateCentroid
  rw [if_neg (by rw [totalMass_gBlack]; norm_num), totalMass_gBlack,
    sumX_gBlack, sumY_gBlack]
  simp only [Point.mk.injEq]
  norm_num

/-- Counterexample to C6 as stated: the uniform all-black 1 by 1 grid
is uniform, yet its centroid is (0, 0) rather than the geometric
center (1/2, 1/2). -/
theorem centroid_uniform_C6_cex :
    calculateCentroid gBlack ≠
      ⟨(gBlack.width : ℝ) / 2, (gBlack.height : ℝ) / 2⟩ := by
  rw [centroid_gBlack]
  simp only [Point.mk.injEq, gBlack]
  norm_num

/-- Witness for the amended C6 on the all-black 1 by 1 grid. -/
theorem centroid_uniform_C6_wit :
    calculateCentroid gBlack =
      ⟨((gBlack.width : ℝ) - 1) / 2, ((gBlack.height : ℝ) - 1) / 2⟩ :=
  (centroid_uniform_C6 gBlack 255 (by
    intro x hx y hy
    norm_num [gBlack, intensityAt])).2 (by norm_num) (by norm_num [gBlack])
    (by norm_num [gBlack])

/-- Pointwise effect of one accumulation step on the bin-sum array. -/
lemma accumStep_fst (g : SampleGrid) (c : Point) (st : (ℕ → ℝ) × (ℕ → ℕ))
    (p : ℕ × ℕ) (i : ℕ) :
    (accumStep g c st p).1 i =
      if ⌊pixDist c p⌋₊ < numBins g ∧ i = ⌊pixDist c p⌋₊ then
        st.1 i + intensityAt g p.1 p.2
      else st.1 i := by
  by_cases h1 : ⌊pixDist c p⌋₊ < numBins g
  · by_cases h2 : i = ⌊pixDist c p⌋₊
    · simp [accumStep, h1, h2]
    · simp [accumStep, h1, h2]
  · simp [accumStep, h1]

/-- Pointwise effect of one accumulation step on the bin-count array. -/
lemma accumStep_snd (g : SampleGrid) (c : Point) (st : (ℕ → ℝ) × (ℕ → ℕ))
    (p : ℕ × ℕ) (i : ℕ) :
    (accumStep g c st p).2 i =
      if ⌊pixDist c p⌋₊ < numBins g ∧ i = ⌊pixDist c p⌋₊ then
        st.2 i + 1
      else st.2 i := by
  by_cases h1 : ⌊pixDist c p⌋₊ < numBins g
  · by_cases h2 : i = ⌊pixDist c p⌋₊
    · simp [accumStep, h1, h2]
    · simp [accumStep, h1, h2]
  · simp [accumStep, h1]

/-- Closed form of the accumulation loop: each in-range bin collects
exactly the pixels whose floored distance names it; out-of-range bins
stay untouched. -/
lemma accum_foldl (g : SampleGrid) (c : Point) (l : List (ℕ × ℕ)) :
    ∀ st : (ℕ → ℝ) × (ℕ → ℕ), ∀ b : ℕ,
      (l.foldl (accumStep g c) st).1 b =
        st.1 b + (if b < numBins g then
          ((l.filter fun p => decide (⌊pixDist c p⌋₊ = b)).map fun p =>
            intensityAt g p.1 p.2).sum else 0) ∧
      (l.foldl (accumStep g c) st).2 b =
        st.2 b + (if b < numBins g then
          ((l.filter fun p => decide (⌊pixDist c p⌋₊ = b)).length : ℕ) else 0) := by
  induction l with
  | nil =>
    intro st b
    constructor <;> simp
  | cons p l ih =>
    intro st b
    obtain ⟨ih1, ih2⟩ := ih (accumStep g c st p) b
    rw [List.foldl_cons]
    by_cases hb : ⌊pixDist c p⌋₊ = b
    · have hfilt : ((p :: l).filter fun q => decide (⌊pixDist c q⌋₊ = b)) =
          p :: (l.filter fun q => decide (⌊pixDist c q⌋₊ = b)) := by
        rw [List.filter_cons, if_pos (decide_eq_true hb)]
      rw [hfilt]
      by_cases hbin : ⌊pixDist c p⌋₊ < numBins g
      · have hguard : b < numBins g := hb ▸ hbin
        constructor
        · rw [ih1, accumStep_fst, if_pos ⟨hbin, hb.symm⟩, if_pos hguard,
            if_pos hguard, List.map_cons, List.sum_cons]
          ring
        · rw [ih2, accumStep_snd, if_pos ⟨hbin, hb.symm⟩, if_pos hguard,
            if_pos hguard, List.length_cons]
          omega
      · have hguard : ¬ b < numBins g := hb ▸ hbin
        constructor
        · rw [ih1, accumStep_fst, if_neg fun h => hbin h.1, if_neg hguard,
            if_neg hguard]
        · rw [ih2, accumStep_snd, if_neg fun h => hbin h.1, if_neg hguard,
            if_neg hguard]
    · have hfilt : ((p :: l).filter fun q => decide (⌊pixDist c q⌋₊ = b)) =
          l.filter fun q => decide (⌊pixDist c q⌋₊ = b) := by
        rw [List.filter_cons, if_neg (by simpa using hb)]
      rw [hfilt]
      by_cases hbin : ⌊pixDist c p⌋₊ < numBins g
      · constructor
        · rw [ih1, accumStep_fst, if_neg fun h => hb h.2.symm]
        · rw [ih2, accumStep_snd, if_neg fun h => hb h.2.symm]
      · constructor
        · rw [ih1, accumStep_fst, if_neg fun h => hbin h.1]
        · rw [ih2, accumStep_snd, if_neg fun h => hbin h.1]

/-- Amended claim C7: the loop accumulates each sample's inverted
intensity into the bin named by the floor of its centroid distance
provided that bin index is below the bin count ceil(sqrt(w²+h²)/2);
samples whose bin index reaches the bin count are dropped. -/
theorem radialAccum_C7 (g : SampleGrid) (c : Point) :
    numBins g = ⌈Real.sqrt ((g.width : ℝ) * g.width +
        (g.height : ℝ) * g.height) / 2⌉₊ ∧
    (∀ b, binCounts g c b =
      if b < numBins g then
        ((pixList g).filter fun p => decide (⌊pixDist c p⌋₊ = b)).length
      else 0) ∧
    (∀ b, binSums g c b =
      if b < numBins g then
        (((pixList g).filter fun p => decide (⌊pixDist c p⌋₊ = b)).map fun p =>
          intensityAt g p.1 p.2).sum
      else 0) := by
  refine ⟨rfl, ?_, ?_⟩
  · intro b
    have h := (accum_foldl g c (pixList g) (fun _ => 0, fun _ => 0) b).2
    simpa [binCounts, binAccum] using h
  · intro b
    have h := (accum_foldl g c (pixList g) (fun _ => 0, fun _ => 0) b).1
    simpa [binSums, binAccum] using h

/-- The 1 by 1 grid has a single radial bin. -/
lemma numBins_gBlack : numBins gBlack = 1 := by
  unfold numBins
  have h1 : Real.sqrt 2 ≤ 2 := by
    calc Real.sqrt 2 ≤ Real.sqrt 4 := Real.sqrt_le_sqrt (by norm_num)
    _ = 2 := by rw [show (4 : ℝ) = 2 ^ 2 by norm_num, Real.sqrt_sq (by norm_num)]
  have h2 : 0 < Real.sqrt 2 / 2 := by positivity
  have hgrid : ((gBlack.width : ℝ) * gBlack.width +
      (gBlack.height : ℝ) * gBlack.height) = 2 := by
    norm_num [gBlack]
  rw [hgrid, Nat.ceil_eq_iff (by norm_num)]
  constructor
  · rw [Nat.sub_self, Nat.cast_zero]
    exact h2
  · push_cast
    linarith

/-- The 1 by 1 grid's pixel list is the single origin pixel. -/
lemma pixList_gBlack : pixList gBlack = [(0, 0)] := rfl

/-- The origin pixel sits at distance 2 from the far centroid. -/
lemma pixDist_cFar : pixDist cFar (0, 0) = 2 := by
  unfold pixDist cFar
  norm_num
  rw [show (4 : ℝ) = 2 ^ 2 by norm_num, Real.sqrt_sq (by norm_num)]

/-- Counterexample to C7 as stated: with the centroid two pixels
outside the 1 by 1 grid, the single sample's bin index 2 reaches past
the bin count 1, so the sample is accumulated nowhere even though one
sample has floored distance 2. -/
theorem radialAccum_C7_cex :
    binCounts gBlack cFar 2 = 0 ∧
    ((pixList gBlack).filter fun p =>
      decide (⌊pixDist cFar p⌋₊ = 2)).length = 1 := by
  have hfloor : ⌊pixDist cFar (0, 0)⌋₊ = 2 := by
    rw [pixDist_cFar]
    norm_num
  constructor
  · unfold binCounts binAccum
    rw [pixList_gBlack]
    simp only [List.foldl_cons, List.foldl_nil]
    rw [accumStep_snd, if_neg]
    intro h
    rw [hfloor, numBins_gBlack] at h
    exact absurd h.1 (by norm_num)
  · rw [pixList_gBlack, List.filter_cons, if_pos (decide_eq_true hfloor),
      List.filter_nil, List.length_cons, List.length_nil]

/-- Claim C8: the emitted profile has one bin-averaged point per
non-empty bin at radius binIndex·scale, its radii are non-decreasing
in output order, and for positive scale no radius exceeds
scale·sqrt(w²+h²)/2. -/
theorem radialProfile_C8 (g : SampleGrid) (c : Point) (s : ℝ) (hs : 0 < s) :
    calculateRadialProfile g c s =
      ((List.range (numBins g)).filterMap fun b =>
        if 0 < ((pixList g).filter fun p =>
            decide (⌊pixDist c p⌋₊ = b)).length then
          some ⟨(b : ℝ) * s,
            (((pixList g).filter fun p =>
              decide (⌊pixDist c p⌋₊ = b)).map fun p =>
                intensityAt g p.1 p.2).sum /
            (((pixList g).filter fun p =>
              decide (⌊pixDist c p⌋₊ = b)).length : ℝ)⟩
        else none) ∧
    List.Pairwise (· ≤ ·)
      ((calculateRadialProfile g c s).map fun p => p.radius) ∧
    ∀ p ∈ calculateRadialProfile g c s,
      p.radius ≤ s * (Real.sqrt ((g.width : ℝ) * g.width +
        (g.height : ℝ) * g.height) / 2) := by
  refine ⟨?_, ?_, ?_⟩
  · unfold calculateRadialProfile
    apply List.filterMap_congr
    intro i hi
    have hi' : i < numBins g := List.mem_range.mp hi
    have hcnt : binCounts g c i =
        ((pixList g).filter fun p => decide (⌊pixDist c p⌋₊ = i)).length := by
      have h := (accum_foldl g c (pixList g) (fun _ => 0, fun _ => 0) i).2
      simpa [binCounts, binAccum, hi'] using h
    have hsum : binSums g c i =
        (((pixList g).filter fun p => decide (⌊pixDist c p⌋₊ = i)).map fun p =>
          intensityAt g p.1 p.2).sum := by
      have h := (accum_foldl g c (pixList g) (fun _ => 0, fun _ => 0) i).1
      simpa [binSums, binAccum, hi'] using h
    rw [hcnt, hsum]
  · rw [List.pairwise_map]
    unfold calculateRadialProfile
    rw [List.pairwise_filterMap]
    refine (List.pairwise_lt_range _).imp ?_
    intro i j hij x hx y hy
    by_cases hci : 0 < binCounts g c i
    · by_cases hcj : 0 < binCounts g c j
      · rw [if_pos hci] at hx
        rw [if_pos hcj] at hy
        rw [Option.mem_def, Option.some.injEq] at hx hy
        rw [← hx, ← hy]
        exact mul_le_mul_of_nonneg_right (Nat.cast_le.mpr hij.le) hs.le
      · rw [if_neg hcj] at hy
        exact absurd hy (Option.not_mem_none y)
    · rw [if_neg hci] at hx
      exact absurd hx (Option.not_mem_none x)
  · intro p hp
    unfold calculateRadialProfile at hp
    obtain ⟨i, hi, hfi⟩ := List.mem_filterMap.mp hp
    have hilt : (i : ℝ) < Real.sqrt ((g.width : ℝ) * g.width +
        (g.height : ℝ) * g.height) / 2 :=
      Nat.lt_ceil.mp (List.mem_range.mp hi)
    by_cases hci : 0 < binCounts g c i
    · rw [if_pos hci, Option.some.injEq] at hfi
      have hrad : p.radius = (i : ℝ) * s := by
        rw [← hfi]
      rw [hrad, mul_comm]
      exact mul_le_mul_of_nonneg_left hilt.le hs.le
    · rw [if_neg hci] at hfi
      exact absurd hfi.symm (Option.some_ne_none p)

/-- Witness for C8: the 1 by 1 grid profiled from the origin at unit
scale has non-decreasing radii. -/
theorem radialProfile_C8_wit :
    List.Pairwise (· ≤ ·)
      ((calculateRadialProfile gBlack cZero 1).map fun p => p.radius) :=
  (radialProfile_C8 gBlack cZero 1 (by norm_num)).2.1
